import Mathlib

/-!
Shallow embedding of `src/Scraping_Google_Patents_1.4.py` (Google Patents
scraper) and proofs about its specification.

Strings are modelled as `List Char`.  The regular-expression class `\s`
(and Python `str.strip`) is modelled on its ASCII members; the
case-insensitive flag is modelled with ASCII lowercasing.  The HTML
document tree produced by the external parser library is modelled as a
`Page` record holding the text and attribute values that the script reads
from it (the selector machinery itself is a library concern, outside the
repository).
-/

/-- Whitespace class of the Python regexes (`\s`), restricted to its ASCII
members: space, tab, newline, carriage return, vertical tab, form feed. -/
def isWS (c : Char) : Bool :=
  c == ' ' || c == '\t' || c == '\n' || c == '\r' || c == '\x0b' || c == '\x0c'

/-- One pass of `re.sub(r"\s+", " ", s)`: every maximal run of whitespace
characters is replaced by a single ASCII space.  The boolean flag records
whether the previous character was part of a whitespace run. -/
def collapseAux : Bool → List Char → List Char
  | _, [] => []
  | true, c :: rest =>
    if isWS c then collapseAux true rest else c :: collapseAux false rest
  | false, c :: rest =>
    if isWS c then ' ' :: collapseAux true rest
    else c :: collapseAux false rest

/-- Removal of trailing whitespace (the right half of Python `str.strip`). -/
def stripEnd (l : List Char) : List Char :=
  (l.reverse.dropWhile isWS).reverse

/-- Python `str.strip()`: removal of leading and trailing whitespace. -/
def pyStrip (l : List Char) : List Char :=
  stripEnd (l.dropWhile isWS)

/-- Embedding of `clean_text` (line 110 of the source):
`re.sub(r"\s+", " ", s or "").strip()`. -/
def clean_text (s : List Char) : List Char :=
  pyStrip (collapseAux false s)

/-- Embedding of `clean_text` on a possibly absent argument: `s or ""`
turns `None` (and the empty string) into the empty string. -/
def cleanTextOpt (s : Option (List Char)) : List Char :=
  clean_text (s.getD [])

/-- Character class `[:\s-]` of the label regex in `normalize_abstract`. -/
def labelChar (c : Char) : Bool :=
  c == ':' || c == '-' || isWS c

/-- Embedding of `re.sub(r"^\s*Abstract[:\s-]*", "", text, flags=IGNORECASE)`
(line 142 of the source).  The pattern is anchored, so at most one match
(at position zero) is removed: optional leading whitespace, the word
"abstract" case-insensitively, then a maximal run of `[:\s-]` characters. -/
def stripLabel (l : List Char) : List Char :=
  if ((l.dropWhile isWS).take 8).map Char.toLower = "abstract".data then
    ((l.dropWhile isWS).drop 8).dropWhile labelChar
  else l

/-- Embedding of `normalize_abstract` (lines 114-144 of the source). -/
def normalize_abstract (text : List Char) : List Char :=
  if text = [] then [] else stripLabel (clean_text text)

/-- Decimal value of a digit string, as computed by Python `int` on the
group matched by `(\d+)` (leading zeros allowed). -/
def digitsToNat (ds : List Char) : Nat :=
  ds.foldl (fun n c => 10 * n + (c.toNat - 48)) 0

/-- Test `re.match(r"^\d+\.\s", txt)` (line 231): one or more digits, a
dot, then a whitespace character.  Maximal munch of `\d+` is equivalent to
the backtracking semantics here because neither `.` nor `\s` matches a
digit. -/
def startsNumDotSpace (l : List Char) : Bool :=
  l.takeWhile Char.isDigit ≠ [] &&
    match l.dropWhile Char.isDigit with
    | '.' :: c :: _ => isWS c
    | _ => false

/-- Test `re.match(r"^\d+\s", txt)` (line 231): one or more digits then a
whitespace character. -/
def startsNumSpace (l : List Char) : Bool :=
  l.takeWhile Char.isDigit ≠ [] &&
    match l.dropWhile Char.isDigit with
    | c :: _ => isWS c
    | _ => false

/-- Filter applied to each candidate claim text (line 231): it is kept when
it starts with a numbering prefix, dotted or not. -/
def numberedFilter (t : List Char) : Bool :=
  startsNumDotSpace t || startsNumSpace t

/-- Embedding of `re.match(r"^(\d+)\.\s*(.*)", c)` followed by
`int(m.group(1))` and `m.group(2).strip()` (lines 251-256).  Group 2 is
matched without DOTALL, so it stops at the first newline (after the greedy
`\s*` run); Python then strips it. -/
def parseClaim (c : List Char) : Option (Nat × List Char) :=
  match c.dropWhile Char.isDigit with
  | '.' :: rest =>
    if c.takeWhile Char.isDigit = [] then none
    else
      some (digitsToNat (c.takeWhile Char.isDigit),
        pyStrip ((rest.dropWhile isWS).takeWhile (fun d => d ≠ '\n')))
  | _ => none

/-- Structured claim record `{"claim_number": ..., "text": ...}`. -/
structure Claim where
  claim_number : Nat
  text : List Char
deriving DecidableEq, Repr

/-- Parse-and-deduplicate loop of lines 246-265: each raw item is parsed
by `parseClaim`; non-matching items are skipped; an item whose number was
already seen is discarded; otherwise it is appended and its number
recorded. -/
def parseDedupAux : List Nat → List (List Char) → List Claim
  | _, [] => []
  | seen, c :: rest =>
    match parseClaim c with
    | none => parseDedupAux seen rest
    | some (n, t) =>
      if n ∈ seen then parseDedupAux seen rest
      else ⟨n, t⟩ :: parseDedupAux (n :: seen) rest

/-- Entry point of the parse-and-deduplicate stage (`seen_nums` starts
empty). -/
def parsedClaims (cs : List (List Char)) : List Claim :=
  parseDedupAux [] cs

/-- Primary claim harvesting (lines 229-232): each selected node text is
cleaned, then kept only when it looks like a numbered claim. -/
def primaryClaims (nodes : List (List Char)) : List (List Char) :=
  (nodes.map clean_text).filter numberedFilter

/-- Scanner for `re.split(r"(?=(?:\s|^)\d+\.\s)", " " + txt)` (line 240).
A zero-width split point lies before every whitespace character that is
followed by `\d+\.\s`.  The `^` alternative is unreachable because the
scanned string always starts with the prepended space.  `acc` holds the
current segment, reversed. -/
def crudeSplitGo : List Char → List Char → List (List Char)
  | [], acc => [acc.reverse]
  | c :: rest, acc =>
    if isWS c && startsNumDotSpace rest then
      acc.reverse :: crudeSplitGo rest [c]
    else crudeSplitGo rest (c :: acc)

/-- Wrapper starting a crude split with an empty current segment. -/
def crudeSplit (l : List Char) : List (List Char) :=
  crudeSplitGo l []

/-- Fallback treatment of one claims container (lines 238-241): split the
cleaned combined text on numbering boundaries, clean every part, keep the
parts that start with a dotted numbering. -/
def partsOf (raw : List Char) : List (List Char) :=
  ((crudeSplit (' ' :: clean_text raw)).map clean_text).filter
    startsNumDotSpace

/-- Fallback loop over the claims containers (lines 236-244): the first
container producing at least one valid part wins and the loop breaks. -/
def fallbackClaims : List (List Char) → List (List Char)
  | [] => []
  | raw :: rest =>
    if partsOf raw = [] then fallbackClaims rest else partsOf raw

/-- Relevant content of the parsed HTML document, as read by the script.
Each field holds what the corresponding lookup yields: `dcTitle` the
content attribute of the `DC.title` meta tag, `docTitle` the text of the
title element, `pubNum` the content of the citation-patent-number meta
tag, `absNode` the visible text of the element with itemprop abstract,
`metaDesc` the content of the description meta tag, `claimNodes` the
visible texts of the first non-empty claim-selector result, `altNodes`
the visible texts of the first non-empty fallback container result. -/
structure Page where
  dcTitle : Option (List Char)
  docTitle : Option (List Char)
  pubNum : Option (List Char)
  absNode : Option (List Char)
  metaDesc : Option (List Char)
  claimNodes : List (List Char)
  altNodes : List (List Char)
deriving DecidableEq, Repr

/-- Title extraction (lines 202-207): the `DC.title` meta content when the
tag exists with a non-empty content (Python truthiness), else the document
title element text, else the empty string. -/
def titleOf (pg : Page) : List Char :=
  match pg.dcTitle with
  | some c =>
    if c = [] then
      match pg.docTitle with
      | some t => clean_text t
      | none => []
    else clean_text c
  | none =>
    match pg.docTitle with
    | some t => clean_text t
    | none => []

/-- Publication-number extraction (lines 210-213). -/
def pubNumOf (pg : Page) : List Char :=
  match pg.pubNum with
  | some c => if c = [] then [] else clean_text c
  | none => []

/-- Abstract extraction (lines 216-223): the abstract-marked element text
when such an element exists, else the description meta content when
non-empty, else the empty string. -/
def abstractOf (pg : Page) : List Char :=
  match pg.absNode with
  | some t => normalize_abstract t
  | none =>
    match pg.metaDesc with
    | some c => if c = [] then [] else normalize_abstract c
    | none => []

/-- Claim text list (lines 226-244): primary harvesting; when it yields
nothing, the crude-split fallback. -/
def claimStrings (pg : Page) : List (List Char) :=
  if primaryClaims pg.claimNodes = [] then fallbackClaims pg.altNodes
  else primaryClaims pg.claimNodes

/-- Output record assembled at lines 268-276. -/
structure PatentRecord where
  source : List Char
  source_url : List Char
  publication_number : List Char
  title : List Char
  abstract : List Char
  claims : List Claim
  raw_html_bytes : Nat
deriving DecidableEq, Repr

/-- Field extraction and record assembly performed after a successful
fetch (lines 199-277), given the parsed page content, the input URL and
the byte length of the fetched body. -/
def scrapeFields (pg : Page) (url : List Char) (nbytes : Nat) :
    PatentRecord :=
  { source := "google_patents".data
    source_url := url
    publication_number := pubNumOf pg
    title := titleOf pg
    abstract := abstractOf pg
    claims := parsedClaims (claimStrings pg)
    raw_html_bytes := nbytes }

/-- Character class `[A-Za-z0-9_-]` of the filename sanitizer (line 291). -/
def allowedChar (c : Char) : Bool :=
  ('A' ≤ c && c ≤ 'Z') || ('a' ≤ c && c ≤ 'z') || ('0' ≤ c && c ≤ '9') ||
    c == '_' || c == '-'

/-- One pass of `re.sub(r"[^A-Za-z0-9_-]+", "_", slug)`: every maximal run
of disallowed characters is replaced by a single underscore.  The flag
records whether the previous character was part of a disallowed run. -/
def sanitizeAux : Bool → List Char → List Char
  | _, [] => []
  | true, c :: rest =>
    if allowedChar c then c :: sanitizeAux false rest
    else sanitizeAux true rest
  | false, c :: rest =>
    if allowedChar c then c :: sanitizeAux false rest
    else '_' :: sanitizeAux true rest

/-- Filename slug computation of lines 290-291: the publication number, or
the fallback name "patent" when it is empty, sanitized. -/
def slugOf (pub : List Char) : List Char :=
  sanitizeAux false (if pub = [] then "patent".data else pub)

/-- Modelled from the spec: outcome of the network fetch, which is
performed by the external requests library (not part of the repository).
Either the transport fails (network failure or timeout) or a response
with a status code, parsed page content and a body byte length arrives. -/
inductive FetchOutcome where
  | transportError : FetchOutcome
  | response (status : Nat) (page : Page) (rawBytes : Nat) : FetchOutcome
deriving DecidableEq

/-- Error taxonomy of the run: a fetch failure (network failure,
non-success status, or timeout). -/
inductive ScrapeError where
  | fetchError : ScrapeError
deriving DecidableEq, Repr

/-- Modelled from the spec: a successful HTTP status ("the response must
carry a successful status or the call fails"), i.e. a 2xx code. -/
def statusSuccess (s : Nat) : Bool :=
  200 ≤ s && s < 300

/-- Predicate for a failed fetch: transport failure or non-success
status. -/
def fetchFailed : FetchOutcome → Bool
  | .transportError => true
  | .response s _ _ => !statusSuccess s

/-- Modelled from the spec: `requests.get(...)` followed by
`r.raise_for_status()` (lines 196-197).  A transport failure or a
non-success status raises, which the script never catches. -/
def fetchPage : FetchOutcome → Except ScrapeError (Page × Nat)
  | .transportError => .error .fetchError
  | .response s pg n =>
    if statusSuccess s then .ok (pg, n) else .error .fetchError

/-- Embedding of `scrape_google_patents` (lines 147-277): fetch, then
extract and assemble; a fetch error propagates. -/
def scrape_google_patents (o : FetchOutcome) (url : List Char) :
    Except ScrapeError PatentRecord := do
  let pn ← fetchPage o
  pure (scrapeFields pn.1 url pn.2)

/-- Embedding of the `__main__` block (lines 280-298): run the scrape,
then derive the output filename and the record to be written.  There is
no exception handler, so a fetch error aborts before any output pair is
produced. -/
def mainRun (o : FetchOutcome) (url : List Char) :
    Except ScrapeError (List Char × PatentRecord) := do
  let data ← scrape_google_patents o url
  pure (slugOf data.publication_number ++ ".json".data, data)

/-!
Specification-side definitions.  These follow the words of the spec, not
the source, and serve as comparison points for refinement statements.
-/

/-- Helper extending the first word of a word list by one character. -/
def glue (c : Char) : List (List Char) → List (List Char)
  | [] => [[c]]
  | w :: ws => (c :: w) :: ws

/-- Maximal runs of non-whitespace characters of a string, in order
(the words of the spec-side description of the Text Normalizer). -/
def wordsOf : List Char → List (List Char)
  | [] => []
  | c :: rest =>
    if isWS c then wordsOf rest
    else
      match rest with
      | [] => [[c]]
      | d :: _ =>
        if isWS d then [c] :: wordsOf rest
        else glue c (wordsOf rest)

/-- Joining of words by single ASCII spaces. -/
def joinWords : List (List Char) → List Char
  | [] => []
  | [w] => w
  | w :: ws => w ++ ' ' :: joinWords ws

/-- Deduplication as the spec words it: the first occurrence of each claim
number is kept, every later item carrying an already-seen number is
discarded entirely. -/
def specFirstOcc : List (Nat × List Char) → List Claim
  | [] => []
  | p :: rest =>
    ⟨p.1, p.2⟩ :: specFirstOcc (rest.filter (fun q => !(q.1 == p.1)))
termination_by l => l.length
decreasing_by
  simp only [List.length_cons]
  exact Nat.lt_succ_of_le (List.length_filter_le _ _)

/-- Sanitization as a run-wise description: every maximal run of
disallowed characters becomes a single underscore (emitted at the end of
the run, unlike the source loop which emits it at the start — the point
of the comparison). -/
def specSan : List Char → List Char
  | [] => []
  | c :: rest =>
    if allowedChar c then c :: specSan rest
    else
      match rest with
      | [] => ['_']
      | d :: _ => if allowedChar d then '_' :: specSan rest else specSan rest

/-- Absence of two adjacent whitespace characters: no internal whitespace
run is longer than one character. -/
def wsRunsOk : List Char → Bool
  | c :: d :: rest => !(isWS c && isWS d) && wsRunsOk (d :: rest)
  | _ => true

/-- Absence of leading and trailing whitespace. -/
def trimOk (l : List Char) : Bool :=
  l.head?.all (fun c => !isWS c) && l.getLast?.all (fun c => !isWS c)

/-- Every whitespace character of the string is a plain ASCII space. -/
def allSpaceB (l : List Char) : Bool :=
  l.all (fun c => !isWS c || c == ' ')

/-- String-field invariant claimed for the output record: no leading or
trailing whitespace, no internal whitespace run longer than one
character. -/
def fieldOk (l : List Char) : Bool :=
  wsRunsOk l && trimOk l

/-- Propositional form of `allSpaceB`, convenient in closure lemmas. -/
def SpacesOnly (l : List Char) : Prop :=
  ∀ c ∈ l, isWS c = true → c = ' '

/-- The normalized form claimed for the abstract begins with the word
"abstract", case-insensitively (the anchored label condition of the
spec). -/
def specBegins (l : List Char) : Prop :=
  (l.take 8).map Char.toLower = "abstract".data

instance (l : List Char) : Decidable (specBegins l) := by
  unfold specBegins; infer_instance

/-!
Auxiliary lemmas on whitespace handling.
-/

theorem hd_dropWhile {p : Char → Bool} {l : List Char} {c : Char}
    (h : (l.dropWhile p).head? = some c) : p c = false := by
  induction l with
  | nil => simp at h
  | cons a t ih =>
    by_cases hp : p a
    · rw [List.dropWhile_cons_of_pos hp] at h; exact ih h
    · rw [List.dropWhile_cons_of_neg hp] at h
      simp at h
      subst h
      exact Bool.eq_false_iff.mpr hp

theorem dropWhile_id_head {p : Char → Bool} {l : List Char}
    (h : ∀ c, l.head? = some c → p c = false) : l.dropWhile p = l := by
  cases l with
  | nil => rfl
  | cons a t =>
    have := h a rfl
    simp [List.dropWhile_cons, this]

theorem dropWhile_dropWhile (p : Char → Bool) (l : List Char) :
    (l.dropWhile p).dropWhile p = l.dropWhile p :=
  dropWhile_id_head (fun _ hc => hd_dropWhile hc)

theorem stripEnd_eq_nil_iff {l : List Char} :
    stripEnd l = [] ↔ ∀ c ∈ l, isWS c = true := by
  simp [stripEnd, List.dropWhile_eq_nil_iff, List.mem_reverse]

theorem stripEnd_decomp (l : List Char) :
    l = stripEnd l ++ (l.reverse.takeWhile isWS).reverse := by
  conv_lhs => rw [← l.reverse_reverse]
  rw [← List.takeWhile_append_dropWhile isWS l.reverse, List.reverse_append]
  rw [List.takeWhile_append_dropWhile]
  rfl

theorem stripEnd_cons (c : Char) (l : List Char) :
    stripEnd (c :: l) =
      if stripEnd l = [] then (if isWS c = true then [] else [c])
      else c :: stripEnd l := by
  unfold stripEnd
  rw [List.reverse_cons, List.dropWhile_append]
  by_cases h : l.reverse.dropWhile isWS = []
  · rw [h]
    by_cases hc : isWS c <;> simp [List.dropWhile_cons, hc]
  · have hcond : (l.reverse.dropWhile isWS).reverse ≠ [] := by
      intro hh
      exact h (by simpa using congrArg List.reverse hh)
    have hemp : (l.reverse.dropWhile isWS).isEmpty = false := by
      cases hcase : l.reverse.dropWhile isWS with
      | nil => exact absurd hcase h
      | cons x xs => rfl
    rw [if_neg hcond, hemp]
    simp

theorem mem_stripEnd {c : Char} {l : List Char} (h : c ∈ stripEnd l) :
    c ∈ l := by
  unfold stripEnd at h
  rw [List.mem_reverse] at h
  exact List.mem_reverse.mp ((List.dropWhile_sublist isWS).mem h)

theorem getLast?_stripEnd {l : List Char} {c : Char}
    (h : (stripEnd l).getLast? = some c) : isWS c = false := by
  unfold stripEnd at h
  rw [List.getLast?_reverse] at h
  exact hd_dropWhile h

theorem head?_stripEnd {l : List Char} (h : stripEnd l ≠ []) :
    (stripEnd l).head? = l.head? := by
  conv_rhs => rw [stripEnd_decomp l]
  rw [List.head?_append_of_ne_nil _ h]

theorem trimOk_pyStrip (l : List Char) : trimOk (pyStrip l) = true := by
  unfold trimOk pyStrip
  apply Bool.and_eq_true_iff.mpr
  constructor
  · cases h : (stripEnd (l.dropWhile isWS)).head? with
    | none => rfl
    | some c =>
      have hne : stripEnd (l.dropWhile isWS) ≠ [] := by
        intro hnil; rw [hnil] at h; simp at h
      rw [head?_stripEnd hne] at h
      simp [Option.all, hd_dropWhile h]
  · cases h : (stripEnd (l.dropWhile isWS)).getLast? with
    | none => rfl
    | some c => simp [Option.all, getLast?_stripEnd h]

theorem wsRunsOk_tail {c : Char} {l : List Char}
    (h : wsRunsOk (c :: l) = true) : wsRunsOk l = true := by
  cases l with
  | nil => rfl
  | cons d r => exact (Bool.and_eq_true_iff.mp h).2

theorem wsRunsOk_pair {c d : Char} {l : List Char}
    (h : wsRunsOk (c :: l) = true) (hd : l.head? = some d) :
    (isWS c && isWS d) = false := by
  cases l with
  | nil => simp at hd
  | cons e r =>
    simp at hd
    subst hd
    have h1 := (Bool.and_eq_true_iff.mp h).1
    cases hb : (isWS c && isWS e) with
    | false => rfl
    | true => rw [hb] at h1; simp at h1

theorem wsRunsOk_cons {c : Char} {l : List Char}
    (h1 : ∀ d, l.head? = some d → (isWS c && isWS d) = false)
    (h2 : wsRunsOk l = true) : wsRunsOk (c :: l) = true := by
  cases l with
  | nil => rfl
  | cons d r =>
    have := h1 d rfl
    simp [wsRunsOk, this, h2]

theorem wsRunsOk_drop (n : Nat) {l : List Char}
    (h : wsRunsOk l = true) : wsRunsOk (l.drop n) = true := by
  induction n generalizing l with
  | zero => exact h
  | succ m ih =>
    cases l with
    | nil => rfl
    | cons c t => exact ih (wsRunsOk_tail h)

theorem wsRunsOk_dropWhile (p : Char → Bool) {l : List Char}
    (h : wsRunsOk l = true) : wsRunsOk (l.dropWhile p) = true := by
  induction l with
  | nil => rfl
  | cons c t ih =>
    by_cases hp : p c
    · rw [List.dropWhile_cons_of_pos hp]; exact ih (wsRunsOk_tail h)
    · rw [List.dropWhile_cons_of_neg hp]; exact h

theorem wsRunsOk_takeWhile (p : Char → Bool) {l : List Char}
    (h : wsRunsOk l = true) : wsRunsOk (l.takeWhile p) = true := by
  induction l with
  | nil => rfl
  | cons c t ih =>
    by_cases hp : p c
    · rw [List.takeWhile_cons_of_pos hp]
      apply wsRunsOk_cons
      · intro d hd
        rw [List.head?_takeWhile] at hd
        cases ht : t.head? with
        | none => rw [ht] at hd; simp at hd
        | some e =>
          rw [ht] at hd
          by_cases hpe : p e
          · simp [Option.filter, hpe] at hd
            subst hd
            exact wsRunsOk_pair h ht
          · simp [Option.filter, hpe] at hd
      · exact ih (wsRunsOk_tail h)
    · rw [List.takeWhile_cons_of_neg hp]; rfl

theorem wsRunsOk_append_left {xs ys : List Char}
    (h : wsRunsOk (xs ++ ys) = true) : wsRunsOk xs = true := by
  induction xs with
  | nil => rfl
  | cons c t ih =>
    apply wsRunsOk_cons
    · intro d hd
      apply wsRunsOk_pair h
      cases t with
      | nil => simp at hd
      | cons e r => simp at hd; subst hd; rfl
    · exact ih (wsRunsOk_tail h)

theorem wsRunsOk_stripEnd {l : List Char} (h : wsRunsOk l = true) :
    wsRunsOk (stripEnd l) = true := by
  have hd := stripEnd_decomp l
  rw [hd] at h
  exact wsRunsOk_append_left h

theorem wsRunsOk_pyStrip {l : List Char} (h : wsRunsOk l = true) :
    wsRunsOk (pyStrip l) = true :=
  wsRunsOk_stripEnd (wsRunsOk_dropWhile isWS h)

theorem mem_pyStrip {c : Char} {l : List Char} (h : c ∈ pyStrip l) :
    c ∈ l :=
  (List.dropWhile_sublist isWS).mem (mem_stripEnd h)

theorem spacesOnly_pyStrip {l : List Char} (h : SpacesOnly l) :
    SpacesOnly (pyStrip l) :=
  fun c hc hw => h c (mem_pyStrip hc) hw

/-!
Lemmas about the whitespace-collapsing pass.
-/

theorem collapse_true_cons_pos {a : Char} {t : List Char}
    (ha : isWS a = true) : collapseAux true (a :: t) = collapseAux true t := by
  simp [collapseAux, ha]

theorem collapse_true_cons_neg {a : Char} {t : List Char}
    (ha : isWS a = false) :
    collapseAux true (a :: t) = a :: collapseAux false t := by
  simp [collapseAux, ha]

theorem collapse_false_cons_pos {a : Char} {t : List Char}
    (ha : isWS a = true) :
    collapseAux false (a :: t) = ' ' :: collapseAux true t := by
  simp [collapseAux, ha]

theorem collapse_false_cons_neg {a : Char} {t : List Char}
    (ha : isWS a = false) :
    collapseAux false (a :: t) = a :: collapseAux false t := by
  simp [collapseAux, ha]

theorem collapse_true_head {l : List Char} {c : Char}
    (h : (collapseAux true l).head? = some c) : isWS c = false := by
  induction l with
  | nil => simp [collapseAux] at h
  | cons a t ih =>
    cases ha : isWS a with
    | true => rw [collapse_true_cons_pos ha] at h; exact ih h
    | false =>
      rw [collapse_true_cons_neg ha] at h
      simp at h
      rw [← h]
      exact ha

theorem collapse_runs (l : List Char) :
    ∀ b, wsRunsOk (collapseAux b l) = true := by
  induction l with
  | nil => intro b; cases b <;> rfl
  | cons a t ih =>
    intro b
    cases ha : isWS a with
    | true =>
      cases b with
      | true => rw [collapse_true_cons_pos ha]; exact ih true
      | false =>
        rw [collapse_false_cons_pos ha]
        apply wsRunsOk_cons
        · intro d hd
          rw [collapse_true_head hd, Bool.and_false]
        · exact ih true
    | false =>
      have hcons : collapseAux b (a :: t) = a :: collapseAux false t := by
        cases b with
        | true => exact collapse_true_cons_neg ha
        | false => exact collapse_false_cons_neg ha
      rw [hcons]
      apply wsRunsOk_cons
      · intro d hd
        rw [ha, Bool.false_and]
      · exact ih false

theorem collapse_space {l : List Char} :
    ∀ b, SpacesOnly (collapseAux b l) := by
  induction l with
  | nil => intro b c hc; cases b <;> simp [collapseAux] at hc
  | cons a t ih =>
    intro b c hc hw
    cases ha : isWS a with
    | true =>
      cases b with
      | true =>
        rw [collapse_true_cons_pos ha] at hc
        exact ih true c hc hw
      | false =>
        rw [collapse_false_cons_pos ha] at hc
        simp at hc
        cases hc with
        | inl h => exact h
        | inr h => exact ih true c h hw
    | false =>
      have hcons : collapseAux b (a :: t) = a :: collapseAux false t := by
        cases b with
        | true => exact collapse_true_cons_neg ha
        | false => exact collapse_false_cons_neg ha
      rw [hcons] at hc
      simp at hc
      cases hc with
      | inl h => subst h; rw [ha] at hw; exact absurd hw (by simp)
      | inr h => exact ih false c h hw

theorem collapse_dropWhile (l : List Char) :
    (collapseAux false l).dropWhile isWS = collapseAux true l := by
  cases l with
  | nil => rfl
  | cons a t =>
    cases ha : isWS a with
    | true =>
      rw [collapse_false_cons_pos ha, collapse_true_cons_pos ha]
      rw [List.dropWhile_cons_of_pos (by decide)]
      exact dropWhile_id_head (fun c hc => collapse_true_head hc)
    | false =>
      rw [collapse_false_cons_neg ha, collapse_true_cons_neg ha]
      rw [List.dropWhile_cons_of_neg (by simp [ha])]

theorem collapse_id {l : List Char} (hr : wsRunsOk l = true)
    (hs : SpacesOnly l) : collapseAux false l = l := by
  induction l with
  | nil => rfl
  | cons a t ih =>
    have hst : SpacesOnly t :=
      fun c hc hw => hs c (List.mem_cons_of_mem a hc) hw
    cases ha : isWS a with
    | true =>
      have haSp : a = ' ' := hs a (by simp) ha
      rw [collapse_false_cons_pos ha, haSp]
      cases t with
      | nil => rfl
      | cons d r =>
        have hdw : isWS d = false := by
          have h1 := (Bool.and_eq_true_iff.mp hr).1
          cases hb : isWS d with
          | false => rfl
          | true => rw [ha, hb] at h1; simp at h1
        have ht := ih (wsRunsOk_tail hr) hst
        rw [collapse_false_cons_neg hdw] at ht
        have h2 : collapseAux false r = r := by
          injection ht
        rw [collapse_true_cons_neg hdw, h2]
    | false =>
      rw [collapse_false_cons_neg ha, ih (wsRunsOk_tail hr) hst]

theorem dropWhile_id_trim {l : List Char} (h : trimOk l = true) :
    l.dropWhile isWS = l := by
  apply dropWhile_id_head
  intro c hc
  have h1 := (Bool.and_eq_true_iff.mp h).1
  rw [hc] at h1
  simpa using h1

theorem stripEnd_id_trim {l : List Char} (h : trimOk l = true) :
    stripEnd l = l := by
  unfold stripEnd
  have : l.reverse.dropWhile isWS = l.reverse := by
    apply dropWhile_id_head
    intro c hc
    rw [List.head?_reverse] at hc
    have h2 := (Bool.and_eq_true_iff.mp h).2
    rw [hc] at h2
    simpa using h2
  rw [this, List.reverse_reverse]

/-- Normalized strings are fixed points of `clean_text`. -/
theorem clean_id {l : List Char} (ht : trimOk l = true)
    (hr : wsRunsOk l = true) (hs : SpacesOnly l) : clean_text l = l := by
  unfold clean_text pyStrip
  rw [collapse_id hr hs, dropWhile_id_trim ht, stripEnd_id_trim ht]

/-- Outputs of `clean_text` carry no edge whitespace. -/
theorem trimOk_clean (s : List Char) : trimOk (clean_text s) = true :=
  trimOk_pyStrip _

/-- Outputs of `clean_text` contain no two adjacent whitespace
characters. -/
theorem wsRunsOk_clean (s : List Char) : wsRunsOk (clean_text s) = true :=
  wsRunsOk_pyStrip (collapse_runs s false)

/-- Whitespace in an output of `clean_text` is always an ASCII space. -/
theorem spacesOnly_clean (s : List Char) : SpacesOnly (clean_text s) :=
  spacesOnly_pyStrip (collapse_space false)

/-- Applying `clean_text` twice equals applying it once. -/
theorem clean_clean (s : List Char) :
    clean_text (clean_text s) = clean_text s :=
  clean_id (trimOk_clean s) (wsRunsOk_clean s) (spacesOnly_clean s)

/-!
Lemmas about `wordsOf` and `joinWords`.
-/

theorem wordsOf_cons_ws {c : Char} {rest : List Char}
    (ha : isWS c = true) : wordsOf (c :: rest) = wordsOf rest := by
  simp [wordsOf, ha]

theorem wordsOf_single {c : Char} (ha : isWS c = false) :
    wordsOf [c] = [[c]] := by
  simp [wordsOf, ha]

theorem wordsOf_cons_cons_ws {c d : Char} {r : List Char}
    (ha : isWS c = false) (hd : isWS d = true) :
    wordsOf (c :: d :: r) = [c] :: wordsOf (d :: r) := by
  simp [wordsOf, ha, hd]

theorem wordsOf_step {c d : Char} {r : List Char} (ha : isWS c = false)
    (hd : isWS d = false) :
    wordsOf (c :: d :: r) = glue c (wordsOf (d :: r)) := by
  simp [wordsOf, ha, hd]

theorem words_shape {d : Char} (r : List Char) (hd : isWS d = false) :
    ∃ w ws, wordsOf (d :: r) = (d :: w) :: ws := by
  induction r generalizing d with
  | nil => exact ⟨[], [], wordsOf_single hd⟩
  | cons e r2 ih =>
    cases he : isWS e with
    | true => exact ⟨[], wordsOf (e :: r2), wordsOf_cons_cons_ws hd he⟩
    | false =>
      obtain ⟨w, ws, hw⟩ := ih he
      refine ⟨e :: w, ws, ?_⟩
      rw [wordsOf_step hd he, hw]
      rfl

theorem wordsOf_cons_cons_nws {c d : Char} {r w : List Char}
    {ws : List (List Char)} (ha : isWS c = false) (hd : isWS d = false)
    (hw : wordsOf (d :: r) = (d :: w) :: ws) :
    wordsOf (c :: d :: r) = (c :: d :: w) :: ws := by
  rw [wordsOf_step ha hd, hw]
  rfl

theorem words_ne_nil {s : List Char} : ∀ w ∈ wordsOf s, w ≠ [] := by
  induction s with
  | nil => intro w hw; simp [wordsOf] at hw
  | cons c r ih =>
    intro w hw
    cases ha : isWS c with
    | true => rw [wordsOf_cons_ws ha] at hw; exact ih w hw
    | false =>
      cases r with
      | nil =>
        rw [wordsOf_single ha] at hw
        simp at hw
        subst hw
        simp
      | cons d r2 =>
        cases hd : isWS d with
        | true =>
          rw [wordsOf_cons_cons_ws ha hd] at hw
          simp at hw
          cases hw with
          | inl h => subst h; simp
          | inr h => exact ih w h
        | false =>
          obtain ⟨w2, ws2, hsh⟩ := words_shape r2 hd
          rw [wordsOf_cons_cons_nws ha hd hsh] at hw
          simp at hw
          cases hw with
          | inl h => subst h; simp
          | inr h =>
            apply ih w
            rw [hsh]
            exact List.mem_cons_of_mem _ h

theorem joinWords_cons2 {w : List Char} {ws : List (List Char)}
    (h : ws ≠ []) : joinWords (w :: ws) = w ++ ' ' :: joinWords ws := by
  cases ws with
  | nil => exact absurd rfl h
  | cons v vs => rfl

theorem joinWords_cons_ne_nil {w : List Char} {ws : List (List Char)}
    (h : w ≠ []) : joinWords (w :: ws) ≠ [] := by
  cases ws with
  | nil => exact h
  | cons v vs =>
    simp [joinWords]

theorem joinWords_push {c : Char} {w : List Char} {ws : List (List Char)} :
    joinWords ((c :: w) :: ws) = c :: joinWords (w :: ws) := by
  cases ws <;> rfl

/-- Central normalization lemma: stripping the collapsed string (in the
state where a whitespace run is already open) yields exactly the words of
the input joined by single spaces. -/
theorem collapse_strip_words (s : List Char) :
    stripEnd (collapseAux true s) = joinWords (wordsOf s) := by
  induction s with
  | nil => rfl
  | cons c r ih =>
    cases ha : isWS c with
    | true => rw [collapse_true_cons_pos ha, wordsOf_cons_ws ha]; exact ih
    | false =>
      rw [collapse_true_cons_neg ha]
      cases r with
      | nil =>
        rw [wordsOf_single ha]
        simp [collapseAux, stripEnd, ha, joinWords]
      | cons d r2 =>
        cases hd : isWS d with
        | true =>
          rw [collapse_false_cons_pos hd]
          rw [collapse_true_cons_pos hd] at ih
          rw [stripEnd_cons, stripEnd_cons]
          rw [wordsOf_cons_cons_ws ha hd, wordsOf_cons_ws hd]
          rw [wordsOf_cons_ws hd] at ih
          by_cases hY : stripEnd (collapseAux true r2) = []
          · have hwnil : wordsOf r2 = [] := by
              by_contra hne
              cases hws : wordsOf r2 with
              | nil => exact hne hws
              | cons w ws =>
                rw [hY, hws] at ih
                exact joinWords_cons_ne_nil
                  (words_ne_nil w (hws ▸ List.mem_cons_self w ws)) ih.symm
            have hsp : isWS ' ' = true := by decide
            rw [hY, hwnil]
            simp [ha, hsp, joinWords]
          · rw [if_neg hY]
            have hss : (' ' :: stripEnd (collapseAux true r2)) ≠ [] := by
              simp
            rw [if_neg hss, ih]
            have hwne : wordsOf r2 ≠ [] := by
              intro hnil
              rw [hnil] at ih
              exact hY (ih ▸ rfl)
            rw [joinWords_cons2 hwne]
            rfl
        | false =>
          rw [collapse_false_cons_neg hd]
          rw [collapse_true_cons_neg hd] at ih
          rw [stripEnd_cons]
          have hne : stripEnd (d :: collapseAux false r2) ≠ [] := by
            intro hnil
            rw [stripEnd_eq_nil_iff] at hnil
            have := hnil d (by simp)
            rw [hd] at this
            exact absurd this (by simp)
          rw [if_neg hne, ih]
          obtain ⟨w, ws, hsh⟩ := words_shape r2 hd
          rw [wordsOf_cons_cons_nws ha hd hsh, hsh]
          simp [joinWords_push]

/-- The Text Normalizer computes exactly: split into maximal runs of
non-whitespace characters, join with single ASCII spaces. -/
theorem clean_eq_words (s : List Char) :
    clean_text s = joinWords (wordsOf s) := by
  unfold clean_text pyStrip
  rw [collapse_dropWhile, collapse_strip_words]

/-!
Lemmas about the anchored label removal.
-/

theorem trimOk_intro {l : List Char}
    (h1 : ∀ c, l.head? = some c → isWS c = false)
    (h2 : ∀ c, l.getLast? = some c → isWS c = false) : trimOk l = true := by
  unfold trimOk
  apply Bool.and_eq_true_iff.mpr
  constructor
  · cases hh : l.head? with
    | none => rfl
    | some c => simp [Option.all, h1 c hh]
  · cases hh : l.getLast? with
    | none => rfl
    | some c => simp [Option.all, h2 c hh]

theorem trimOk_head {l : List Char} (h : trimOk l = true) {c : Char}
    (hc : l.head? = some c) : isWS c = false := by
  have h1 := (Bool.and_eq_true_iff.mp h).1
  rw [hc] at h1
  simpa using h1

theorem trimOk_last {l : List Char} (h : trimOk l = true) {c : Char}
    (hc : l.getLast? = some c) : isWS c = false := by
  have h1 := (Bool.and_eq_true_iff.mp h).2
  rw [hc] at h1
  simpa using h1

theorem getLast?_drop_ne {l : List Char} {n : Nat} (h : l.drop n ≠ []) :
    (l.drop n).getLast? = l.getLast? := by
  conv_rhs => rw [← List.take_append_drop n l]
  rw [List.getLast?_append_of_ne_nil _ h]

theorem getLast?_dropWhile_ne {p : Char → Bool} {l : List Char}
    (h : l.dropWhile p ≠ []) :
    (l.dropWhile p).getLast? = l.getLast? := by
  conv_rhs => rw [← List.takeWhile_append_dropWhile p l]
  rw [List.getLast?_append_of_ne_nil _ h]

theorem labelChar_ws {c : Char} (h : labelChar c = false) :
    isWS c = false := by
  unfold labelChar at h
  cases hh : isWS c with
  | false => rfl
  | true => rw [hh] at h; simp at h

/-- Normedness (trimmed, no double whitespace, spaces only) is preserved
by the label-removal step. -/
theorem normed_stripLabel {l : List Char} (ht : trimOk l = true)
    (hr : wsRunsOk l = true) (hs : SpacesOnly l) :
    trimOk (stripLabel l) = true ∧ wsRunsOk (stripLabel l) = true ∧
      SpacesOnly (stripLabel l) := by
  unfold stripLabel
  rw [dropWhile_id_trim ht]
  by_cases hc : (l.take 8).map Char.toLower = "abstract".data
  · rw [if_pos hc]
    refine ⟨?_, wsRunsOk_dropWhile _ (wsRunsOk_drop 8 hr), ?_⟩
    · apply trimOk_intro
      · intro c hcc
        exact labelChar_ws (hd_dropWhile hcc)
      · intro c hcc
        have hne : (l.drop 8).dropWhile labelChar ≠ [] := by
          intro hnil; rw [hnil] at hcc; simp at hcc
        have hdne : l.drop 8 ≠ [] := by
          intro hnil; rw [hnil] at hne; exact hne rfl
        rw [getLast?_dropWhile_ne hne, getLast?_drop_ne hdne] at hcc
        exact trimOk_last ht hcc
    · intro c hcc hw
      exact hs c
        ((List.drop_sublist 8 l).mem
          ((List.dropWhile_sublist labelChar).mem hcc)) hw
  · rw [if_neg hc]
    exact ⟨ht, hr, hs⟩

theorem normalize_abstract_eq {s : List Char} (h : s ≠ []) :
    normalize_abstract s = stripLabel (clean_text s) := by
  simp [normalize_abstract, h]

/-!
Claim theorems about the normalizers.
-/

/-- Claim C4: for every input to the Text Normalizer (any string, or an
absent value), the output collapses each maximal run of whitespace
characters to a single ASCII space (it equals the maximal non-whitespace
runs joined by single spaces), has no leading or trailing whitespace and
no adjacent whitespace pair, every whitespace in it is an ASCII space,
and it is empty for absent or empty input. -/
theorem claim_C4 :
    cleanTextOpt none = [] ∧ clean_text [] = [] ∧
    (∀ s : List Char, clean_text s = joinWords (wordsOf s)) ∧
    (∀ s : List Char, trimOk (clean_text s) = true) ∧
    (∀ s : List Char, wsRunsOk (clean_text s) = true) ∧
    (∀ s : List Char, allSpaceB (clean_text s) = true) := by
  refine ⟨rfl, rfl, clean_eq_words, trimOk_clean, wsRunsOk_clean, ?_⟩
  intro s
  rw [allSpaceB, List.all_eq_true]
  intro c hc
  cases hw : isWS c with
  | false => simp
  | true =>
    have := spacesOnly_clean s c hc hw
    simp [this]

/-- Claim C5 (as stated, refuted): the Abstract Normalizer is not
idempotent.  On "AbstractAbstract" one application leaves "Abstract",
which a second application removes entirely. -/
theorem claim_C5_cex :
    normalize_abstract (normalize_abstract "AbstractAbstract".data) ≠
      normalize_abstract "AbstractAbstract".data := by
  decide

/-- Claim C5 (amended): the Abstract Normalizer is idempotent on every
input whose once-normalized result does not itself begin with the word
"abstract" (case-insensitively); on such inputs a second application
strips a further label. -/
theorem claim_C5 (s : List Char)
    (h : ¬ specBegins (normalize_abstract s)) :
    normalize_abstract (normalize_abstract s) = normalize_abstract s := by
  by_cases hnil : s = []
  · subst hnil; rfl
  · rw [normalize_abstract_eq hnil] at h ⊢
    have ht := trimOk_clean s
    have hr := wsRunsOk_clean s
    have hs := spacesOnly_clean s
    obtain ⟨ht2, hr2, hs2⟩ := normed_stripLabel ht hr hs
    by_cases hm : stripLabel (clean_text s) = []
    · rw [hm]; rfl
    · rw [normalize_abstract_eq hm, clean_id ht2 hr2 hs2]
      generalize hgen : stripLabel (clean_text s) = m at h ht2 ⊢
      unfold specBegins at h
      unfold stripLabel
      rw [dropWhile_id_trim ht2, if_neg h]

/-- Witness for the amended claim C5 at a concrete input. -/
theorem claim_C5_witness :
    normalize_abstract (normalize_abstract "A widget is shown.".data) =
      normalize_abstract "A widget is shown.".data :=
  claim_C5 "A widget is shown.".data (by decide)

/-- Claim C6: the Abstract Normalizer removes only a leading label
anchored at position zero of the normalized string — the word "abstract"
case-insensitively followed by a maximal run of colon, hyphen or
whitespace characters — removing at most that first match; when the
normalized input does not begin with the word, the output is the
normalized input unchanged. -/
theorem claim_C6 (s : List Char) :
    (¬ specBegins (clean_text s) → normalize_abstract s = clean_text s) ∧
    (specBegins (clean_text s) →
      ∃ w p, w.map Char.toLower = "abstract".data ∧
        (∀ c ∈ p, labelChar c = true) ∧
        clean_text s = (w ++ p) ++ normalize_abstract s ∧
        ∀ c, (normalize_abstract s).head? = some c → labelChar c = false) := by
  by_cases hnil : s = []
  · subst hnil
    constructor
    · intro _; rfl
    · intro h; exact absurd h (by decide)
  · have ht := trimOk_clean s
    rw [normalize_abstract_eq hnil]
    unfold stripLabel
    rw [dropWhile_id_trim ht]
    constructor
    · intro h
      unfold specBegins at h
      rw [if_neg h]
    · intro h
      unfold specBegins at h
      rw [if_pos h]
      refine ⟨(clean_text s).take 8,
        ((clean_text s).drop 8).takeWhile labelChar, h, ?_, ?_, ?_⟩
      · intro c hc
        exact List.mem_takeWhile_imp hc
      · conv_lhs => rw [← List.take_append_drop 8 (clean_text s)]
        rw [List.append_assoc,
          List.takeWhile_append_dropWhile labelChar ((clean_text s).drop 8)]
      · intro c hc
        exact hd_dropWhile hc

/-- Witness for claim C6 at a concrete input without a label. -/
theorem claim_C6_witness :
    normalize_abstract "No label here".data =
      clean_text "No label here".data :=
  (claim_C6 "No label here".data).1 (by decide)

/-!
Lemmas about claim parsing and deduplication.
-/

theorem takeWhile_all_stop {p : Char → Bool} {xs ys : List Char} {y : Char}
    (hall : ∀ a ∈ xs, p a = true) (hy : p y = false) :
    (xs ++ y :: ys).takeWhile p = xs ∧ (xs ++ y :: ys).dropWhile p = y :: ys := by
  induction xs with
  | nil =>
    constructor
    · rw [List.nil_append, List.takeWhile_cons_of_neg (by simp [hy])]
    · rw [List.nil_append, List.dropWhile_cons_of_neg (by simp [hy])]
  | cons a t ih =>
    have ha := hall a (by simp)
    have iht := ih (fun b hb => hall b (List.mem_cons_of_mem a hb))
    constructor
    · rw [List.cons_append, List.takeWhile_cons_of_pos ha, iht.1]
    · rw [List.cons_append, List.dropWhile_cons_of_pos ha, iht.2]

theorem parseClaim_eq_some {c : List Char} {n : Nat} {t : List Char}
    (h : parseClaim c = some (n, t)) :
    ∃ ds rest, c = ds ++ '.' :: rest ∧ ds ≠ [] ∧
      (∀ d ∈ ds, d.isDigit = true) ∧ n = digitsToNat ds ∧
      t = pyStrip ((rest.dropWhile isWS).takeWhile (fun d => d ≠ '\n')) := by
  unfold parseClaim at h
  split at h
  next rest heq =>
    by_cases hds : c.takeWhile Char.isDigit = []
    · rw [if_pos hds] at h; simp at h
    · rw [if_neg hds] at h
      injection h with hpair
      cases hpair
      refine ⟨c.takeWhile Char.isDigit, rest, ?_, hds,
        fun d hd => List.mem_takeWhile_imp hd, rfl, rfl⟩
      conv_lhs => rw [← List.takeWhile_append_dropWhile Char.isDigit c]
      rw [heq]
  next => simp at h

theorem parseClaim_of_shape {ds rest : List Char} (hne : ds ≠ [])
    (hdig : ∀ d ∈ ds, d.isDigit = true) :
    parseClaim (ds ++ '.' :: rest) =
      some (digitsToNat ds,
        pyStrip ((rest.dropWhile isWS).takeWhile (fun d => d ≠ '\n'))) := by
  have hdot : Char.isDigit '.' = false := by decide
  obtain ⟨htw, hdw⟩ := takeWhile_all_stop hdig hdot
  unfold parseClaim
  rw [hdw, htw]
  show (if ds = [] then none
      else
        some (digitsToNat ds,
          pyStrip ((rest.dropWhile isWS).takeWhile (fun d => d ≠ '\n')))) =
    some (digitsToNat ds,
      pyStrip ((rest.dropWhile isWS).takeWhile (fun d => d ≠ '\n')))
  rw [if_neg hne]

theorem parse_text_no_newline {rest : List Char} (h : '\n' ∉ rest) :
    pyStrip ((rest.dropWhile isWS).takeWhile (fun d => d ≠ '\n')) =
      pyStrip rest := by
  have h1 : (rest.dropWhile isWS).takeWhile (fun d => d ≠ '\n') =
      rest.dropWhile isWS := by
    rw [List.takeWhile_eq_self_iff]
    intro x hx
    have hxr : x ∈ rest := (List.dropWhile_sublist isWS).mem hx
    have hxn : x ≠ '\n' := fun hh => h (hh ▸ hxr)
    simpa using hxn
  rw [h1]
  unfold pyStrip
  rw [dropWhile_dropWhile]

/-- Claim C2: in the claim-parsing stage, a raw item yields a record
exactly when it starts with one or more digits followed by a dot (the dot
is required, unlike the primary filter which also accepts a bare
number-and-space); the leading digits become the claim number and the
trimmed remainder after the dot becomes the text.  Items reaching this
stage have been whitespace-normalized, hence contain no newline. -/
theorem claim_C2 (c : List Char) (hnl : '\n' ∉ c) :
    ((parseClaim c).isSome = true ↔
      ∃ ds rest, c = ds ++ '.' :: rest ∧ ds ≠ [] ∧
        ∀ d ∈ ds, d.isDigit = true) ∧
    ∀ n t, parseClaim c = some (n, t) →
      ∃ ds rest, c = ds ++ '.' :: rest ∧ ds ≠ [] ∧
        (∀ d ∈ ds, d.isDigit = true) ∧ n = digitsToNat ds ∧
        t = pyStrip rest := by
  constructor
  · constructor
    · intro h
      cases hp : parseClaim c with
      | none => rw [hp] at h; simp at h
      | some v =>
        obtain ⟨n, t⟩ := v
        obtain ⟨ds, rest, h1, h2, h3, _, _⟩ := parseClaim_eq_some hp
        exact ⟨ds, rest, h1, h2, h3⟩
    · rintro ⟨ds, rest, hc, hne, hdig⟩
      subst hc
      rw [parseClaim_of_shape hne hdig]
      rfl
  · intro n t hp
    obtain ⟨ds, rest, hc, hne, hdig, hn, ht⟩ := parseClaim_eq_some hp
    refine ⟨ds, rest, hc, hne, hdig, hn, ?_⟩
    have hrest : '\n' ∉ rest := by
      intro hmem
      apply hnl
      rw [hc]
      exact List.mem_append_right ds (List.mem_cons_of_mem '.' hmem)
    rw [ht, parse_text_no_newline hrest]

/-- Witness for claim C2: a concrete dotted item is accepted. -/
theorem claim_C2_witness : (parseClaim "3.x".data).isSome = true :=
  (claim_C2 "3.x".data (by decide)).1.mpr
    ⟨['3'], ['x'], by decide, by decide, by decide⟩

theorem dedup_spec (cs : List (List Char)) :
    ∀ seen, parseDedupAux seen cs =
      specFirstOcc ((cs.filterMap parseClaim).filter
        (fun p => !(decide (p.1 ∈ seen)))) := by
  induction cs with
  | nil => intro seen; simp [parseDedupAux, specFirstOcc]
  | cons c rest ih =>
    intro seen
    cases hp : parseClaim c with
    | none =>
      simp only [parseDedupAux, hp, List.filterMap_cons]
      exact ih seen
    | some p =>
      obtain ⟨n, t⟩ := p
      simp only [parseDedupAux, hp, List.filterMap_cons]
      by_cases hmem : n ∈ seen
      · rw [if_pos hmem, List.filter_cons,
          if_neg (by simp [hmem]), ih seen]
      · rw [if_neg hmem, List.filter_cons, if_pos (by simp [hmem])]
        rw [specFirstOcc, ih (n :: seen), List.filter_filter]
        congr 2
        apply List.filter_congr
        intro a _
        by_cases h1 : a.1 = n <;> by_cases h2 : a.1 ∈ seen <;>
          simp [h1, h2]

theorem dedup_not_seen (cs : List (List Char)) :
    ∀ seen, ∀ cl ∈ parseDedupAux seen cs, cl.claim_number ∉ seen := by
  induction cs with
  | nil => intro seen cl hcl; simp [parseDedupAux] at hcl
  | cons c rest ih =>
    intro seen cl hcl
    cases hp : parseClaim c with
    | none =>
      simp only [parseDedupAux, hp] at hcl
      exact ih seen cl hcl
    | some p =>
      obtain ⟨n, t⟩ := p
      simp only [parseDedupAux, hp] at hcl
      by_cases hmem : n ∈ seen
      · rw [if_pos hmem] at hcl
        exact ih seen cl hcl
      · rw [if_neg hmem] at hcl
        simp at hcl
        cases hcl with
        | inl h => subst h; exact hmem
        | inr h =>
          intro hs
          exact ih (n :: seen) cl h (List.mem_cons_of_mem n hs)

theorem dedup_nodup (cs : List (List Char)) :
    ∀ seen, ((parseDedupAux seen cs).map Claim.claim_number).Nodup := by
  induction cs with
  | nil => intro seen; simp [parseDedupAux]
  | cons c rest ih =>
    intro seen
    cases hp : parseClaim c with
    | none => simp only [parseDedupAux, hp]; exact ih seen
    | some p =>
      obtain ⟨n, t⟩ := p
      simp only [parseDedupAux, hp]
      by_cases hmem : n ∈ seen
      · rw [if_pos hmem]; exact ih seen
      · rw [if_neg hmem]
        rw [List.map_cons, List.nodup_cons]
        constructor
        · intro hmm
          obtain ⟨cl, hcl, hno⟩ := List.mem_map.mp hmm
          apply dedup_not_seen rest (n :: seen) cl hcl
          rw [hno]
          exact List.mem_cons_self n seen
        · exact ih (n :: seen)

theorem dedup_mem_src (cs : List (List Char)) :
    ∀ seen, ∀ cl ∈ parseDedupAux seen cs,
      ∃ c ∈ cs, parseClaim c = some (cl.claim_number, cl.text) := by
  induction cs with
  | nil => intro seen cl hcl; simp [parseDedupAux] at hcl
  | cons c rest ih =>
    intro seen cl hcl
    cases hp : parseClaim c with
    | none =>
      simp only [parseDedupAux, hp] at hcl
      obtain ⟨c2, hc2, hpc⟩ := ih seen cl hcl
      exact ⟨c2, List.mem_cons_of_mem c hc2, hpc⟩
    | some p =>
      obtain ⟨n, t⟩ := p
      simp only [parseDedupAux, hp] at hcl
      by_cases hmem : n ∈ seen
      · rw [if_pos hmem] at hcl
        obtain ⟨c2, hc2, hpc⟩ := ih seen cl hcl
        exact ⟨c2, List.mem_cons_of_mem c hc2, hpc⟩
      · rw [if_neg hmem] at hcl
        simp at hcl
        cases hcl with
        | inl h => subst h; exact ⟨c, List.mem_cons_self c rest, hp⟩
        | inr h =>
          obtain ⟨c2, hc2, hpc⟩ := ih (n :: seen) cl h
          exact ⟨c2, List.mem_cons_of_mem c hc2, hpc⟩

theorem wsRunsOk_append_right {xs ys : List Char}
    (h : wsRunsOk (xs ++ ys) = true) : wsRunsOk ys = true := by
  induction xs with
  | nil => exact h
  | cons a t ih => exact ih (wsRunsOk_tail h)

theorem fallback_mem {alts : List (List Char)} {t : List Char}
    (h : t ∈ fallbackClaims alts) :
    (∃ s, t = clean_text s) ∧ startsNumDotSpace t = true := by
  induction alts with
  | nil => simp [fallbackClaims] at h
  | cons raw rest ih =>
    simp only [fallbackClaims] at h
    by_cases hp : partsOf raw = []
    · rw [if_pos hp] at h; exact ih h
    · rw [if_neg hp] at h
      unfold partsOf at h
      obtain ⟨hmap, hfilt⟩ := List.mem_filter.mp h
      obtain ⟨s, _, hts⟩ := List.mem_map.mp hmap
      exact ⟨⟨s, hts.symm⟩, hfilt⟩

theorem claimStrings_src {pg : Page} {t : List Char}
    (h : t ∈ claimStrings pg) :
    (∃ s, t = clean_text s) ∧ numberedFilter t = true := by
  unfold claimStrings at h
  by_cases hp : primaryClaims pg.claimNodes = []
  · rw [if_pos hp] at h
    obtain ⟨hsrc, hnds⟩ := fallback_mem h
    refine ⟨hsrc, ?_⟩
    unfold numberedFilter
    rw [hnds]
    rfl
  · rw [if_neg hp] at h
    unfold primaryClaims at h
    obtain ⟨hmap, hfilt⟩ := List.mem_filter.mp h
    obtain ⟨s, _, hts⟩ := List.mem_map.mp hmap
    exact ⟨⟨s, hts.symm⟩, hfilt⟩

theorem parse_some_numdot {c : List Char} {n : Nat} {t : List Char}
    (hp : parseClaim c = some (n, t)) (hnum : numberedFilter c = true) :
    startsNumDotSpace c = true := by
  cases hd : startsNumDotSpace c with
  | true => rfl
  | false =>
    exfalso
    unfold numberedFilter at hnum
    rw [hd] at hnum
    simp at hnum
    obtain ⟨ds, rest, hc, hne, hdig, _, _⟩ := parseClaim_eq_some hp
    have hdw : c.dropWhile Char.isDigit = '.' :: rest := by
      rw [hc]
      exact (takeWhile_all_stop hdig (by decide)).2
    unfold startsNumSpace at hnum
    rw [hdw] at hnum
    simp at hnum
    exact absurd hnum.2 (by decide)

theorem parse_text_props {c : List Char} {n : Nat} {t : List Char}
    (hr : wsRunsOk c = true) (hs : SpacesOnly c)
    (hp : parseClaim c = some (n, t)) :
    trimOk t = true ∧ wsRunsOk t = true ∧ SpacesOnly t := by
  obtain ⟨ds, rest, hc, hne, hdig, hn, ht⟩ := parseClaim_eq_some hp
  subst hc
  have hrest : wsRunsOk rest = true :=
    wsRunsOk_tail (wsRunsOk_append_right hr)
  have hsrest : SpacesOnly rest := fun x hx hw =>
    hs x (List.mem_append_right ds (List.mem_cons_of_mem '.' hx)) hw
  refine ⟨ht ▸ trimOk_pyStrip _, ?_, ?_⟩
  · rw [ht]
    exact wsRunsOk_pyStrip
      (wsRunsOk_takeWhile _ (wsRunsOk_dropWhile isWS hrest))
  · rw [ht]
    intro x hx hw
    exact hsrest x
      ((List.dropWhile_sublist isWS).mem
        ((List.takeWhile_sublist _).mem (mem_pyStrip hx))) hw

theorem parse_text_ne {c : List Char} {n : Nat} {t : List Char}
    (hnum : startsNumDotSpace c = true) (htr : trimOk c = true)
    (hp : parseClaim c = some (n, t)) : t ≠ [] := by
  obtain ⟨ds, rest, hc, hne, hdig, hn, ht⟩ := parseClaim_eq_some hp
  subst hc
  have hdot : Char.isDigit '.' = false := by decide
  obtain ⟨htw, hdw⟩ := takeWhile_all_stop hdig hdot
  unfold startsNumDotSpace at hnum
  rw [hdw] at hnum
  cases rest with
  | nil => simp at hnum
  | cons x xs =>
    have hlast : ∃ g, (x :: xs).getLast? = some g ∧ isWS g = false := by
      cases hg : (x :: xs).getLast? with
      | none => simp at hg
      | some g =>
        refine ⟨g, rfl, ?_⟩
        apply trimOk_last htr
        rw [List.getLast?_append_of_ne_nil ds (by simp),
          List.getLast?_cons_cons, hg]
    obtain ⟨g, hg, hgw⟩ := hlast
    have hdwne : (x :: xs).dropWhile isWS ≠ [] := by
      intro hnil
      rw [List.dropWhile_eq_nil_iff] at hnil
      have hmem : g ∈ x :: xs := by
        obtain ⟨hne2, hgeq⟩ :=
          List.mem_getLast?_eq_getLast (Option.mem_def.mpr hg)
        rw [hgeq]
        exact List.getLast_mem hne2
      rw [hnil g hmem] at hgw
      exact absurd hgw (by simp)
    rw [ht]
    cases hdx : (x :: xs).dropWhile isWS with
    | nil => exact absurd hdx hdwne
    | cons e es =>
      have hew : isWS e = false := hd_dropWhile (by rw [hdx]; rfl)
      have hen : e ≠ '\n' := by
        intro hh
        rw [hh] at hew
        exact absurd hew (by decide)
      have htk : List.takeWhile (fun d => decide (d ≠ '\n')) (e :: es) =
          e :: List.takeWhile (fun d => decide (d ≠ '\n')) es := by
        simp [List.takeWhile_cons, hen]
      rw [htk]
      unfold pyStrip
      rw [List.dropWhile_cons_of_neg (by simp [hew])]
      intro hnil
      rw [stripEnd_eq_nil_iff] at hnil
      have := hnil e (by simp)
      rw [hew] at this
      exact absurd this (by simp)

/-- Claim C1: on the concrete input list the parse-and-deduplicate stage
produces exactly the two claims 1 and 2 in first-seen order, and in
general the stage computes the first occurrence of each claim number over
the parsed items, discarding every later item whose number was already
seen. -/
theorem claim_C1 :
    parsedClaims ["1. Foo".data, "2. Bar".data, "1. Duplicate".data] =
      [⟨1, "Foo".data⟩, ⟨2, "Bar".data⟩] ∧
    ∀ cs : List (List Char),
      parsedClaims cs = specFirstOcc (cs.filterMap parseClaim) := by
  constructor
  · decide
  · intro cs
    unfold parsedClaims
    rw [dedup_spec cs []]
    congr 1
    exact List.filter_eq_self.mpr (fun a _ => by simp)

theorem claims_props (pg : Page) :
    ∀ cl ∈ parsedClaims (claimStrings pg),
      cl.text ≠ [] ∧ trimOk cl.text = true ∧ wsRunsOk cl.text = true ∧
        SpacesOnly cl.text := by
  intro cl hcl
  obtain ⟨c, hc, hp⟩ := dedup_mem_src _ [] cl hcl
  obtain ⟨⟨s, hsrc⟩, hnum⟩ := claimStrings_src hc
  subst hsrc
  have hdot := parse_some_numdot hp hnum
  obtain ⟨ht1, hr1, hs1⟩ :=
    parse_text_props (wsRunsOk_clean s) (spacesOnly_clean s) hp
  exact ⟨parse_text_ne hdot (trimOk_clean s) hp, ht1, hr1, hs1⟩

/-- Claim C3 (as stated, refuted): the claim-number invariant
claim_number ≥ 1 fails — the raw item "0. Foo" passes the numbered
filter and yields a record with claim number 0. -/
theorem claim_C3_cex :
    ¬ (∀ cl ∈ (scrapeFields
        { dcTitle := none, docTitle := none, pubNum := none,
          absNode := none, metaDesc := none,
          claimNodes := ["0. Foo".data], altNodes := [] }
        [] 0).claims, 1 ≤ cl.claim_number) := by
  decide

/-- Claim C3 (amended): every claim record of the assembled result has a
claim number that is a natural number (possibly 0), unique within the
result, and a non-empty whitespace-normalized text; this holds for every
page content. -/
theorem claim_C3 (pg : Page) (url : List Char) (n : Nat) :
    (((scrapeFields pg url n).claims.map Claim.claim_number).Nodup) ∧
    ∀ cl ∈ (scrapeFields pg url n).claims,
      cl.text ≠ [] ∧ clean_text cl.text = cl.text := by
  constructor
  · exact dedup_nodup (claimStrings pg) []
  · intro cl hcl
    obtain ⟨hne, ht2, hr2, hs2⟩ := claims_props pg cl hcl
    exact ⟨hne, clean_id ht2 hr2 hs2⟩

/-- Witness for the amended claim C3 at a concrete page. -/
theorem claim_C3_witness :
    (Claim.mk 1 "A widget.".data).text ≠ [] ∧
      clean_text (Claim.mk 1 "A widget.".data).text =
        (Claim.mk 1 "A widget.".data).text :=
  (claim_C3
    { dcTitle := none, docTitle := none, pubNum := none,
      absNode := none, metaDesc := none,
      claimNodes := ["1. A widget.".data], altNodes := [] } [] 0).2
    (Claim.mk 1 "A widget.".data) (by decide)

theorem fieldOk_intro {l : List Char} (hr : wsRunsOk l = true)
    (ht : trimOk l = true) : fieldOk l = true := by
  simp [fieldOk, hr, ht]

theorem fieldOk_clean (s : List Char) : fieldOk (clean_text s) = true :=
  fieldOk_intro (wsRunsOk_clean s) (trimOk_clean s)

theorem fieldOk_normAbs (t : List Char) :
    fieldOk (normalize_abstract t) = true := by
  by_cases ht : t = []
  · subst ht; rfl
  · rw [normalize_abstract_eq ht]
    obtain ⟨h1, h2, _⟩ := normed_stripLabel (trimOk_clean t)
      (wsRunsOk_clean t) (spacesOnly_clean t)
    exact fieldOk_intro h2 h1

theorem fieldOk_title (pg : Page) : fieldOk (titleOf pg) = true := by
  unfold titleOf
  cases pg.dcTitle with
  | some c =>
    dsimp only
    by_cases hc : c = []
    · rw [if_pos hc]
      cases pg.docTitle with
      | some t => exact fieldOk_clean t
      | none => rfl
    · rw [if_neg hc]; exact fieldOk_clean c
  | none =>
    cases pg.docTitle with
    | some t => exact fieldOk_clean t
    | none => rfl

theorem fieldOk_pub (pg : Page) : fieldOk (pubNumOf pg) = true := by
  unfold pubNumOf
  cases pg.pubNum with
  | some c =>
    dsimp only
    by_cases hc : c = []
    · rw [if_pos hc]; rfl
    · rw [if_neg hc]; exact fieldOk_clean c
  | none => rfl

theorem fieldOk_abs (pg : Page) : fieldOk (abstractOf pg) = true := by
  unfold abstractOf
  cases pg.absNode with
  | some t => exact fieldOk_normAbs t
  | none =>
    cases pg.metaDesc with
    | some c =>
      dsimp only
      by_cases hc : c = []
      · rw [if_pos hc]; rfl
      · rw [if_neg hc]; exact fieldOk_normAbs c
    | none => rfl

/-- Claim C7 (as stated, refuted): source_url is set to the input URL
verbatim and is never normalized, so a URL containing an internal run of
two spaces violates the field invariant. -/
theorem claim_C7_cex :
    fieldOk ((scrapeFields
        { dcTitle := none, docTitle := none, pubNum := none,
          absNode := none, metaDesc := none,
          claimNodes := [], altNodes := [] }
        "http://x  y".data 0).source_url) = false := by
  decide

/-- Claim C7 (amended): every string field of the assembled record except
source_url — source, publication_number, title, abstract, and each claim
text — has no leading or trailing whitespace and no internal whitespace
run longer than one character; source_url is the input URL verbatim. -/
theorem claim_C7 (pg : Page) (url : List Char) (n : Nat) :
    fieldOk (scrapeFields pg url n).source = true ∧
    fieldOk (scrapeFields pg url n).publication_number = true ∧
    fieldOk (scrapeFields pg url n).title = true ∧
    fieldOk (scrapeFields pg url n).abstract = true ∧
    (∀ cl ∈ (scrapeFields pg url n).claims, fieldOk cl.text = true) ∧
    (scrapeFields pg url n).source_url = url := by
  have hsrc : fieldOk "google_patents".data = true := by decide
  refine ⟨hsrc, fieldOk_pub pg, fieldOk_title pg, fieldOk_abs pg,
    ?_, rfl⟩
  intro cl hcl
  obtain ⟨_, ht2, hr2, _⟩ := claims_props pg cl hcl
  exact fieldOk_intro hr2 ht2

/-- Witness for the amended claim C7: the claim text produced from a
concrete page satisfies the field invariant. -/
theorem claim_C7_witness :
    fieldOk (Claim.mk 1 "A widget.".data).text = true :=
  (claim_C7
    { dcTitle := none, docTitle := none, pubNum := none,
      absNode := none, metaDesc := none,
      claimNodes := ["1. A widget.".data],
      altNodes := [] } [] 0).2.2.2.2.1
    (Claim.mk 1 "A widget.".data) (by decide)

/-- Claim C10: when an abstract-marked element exists, the description
meta tag is never consulted (the abstract is unchanged under any change
of the description meta content), and when the visible text of that element is
empty or whitespace-only the abstract is the empty string. -/
theorem claim_C10 (pg : Page) (url : List Char) (n : Nat)
    (d2 : Option (List Char)) (h : pg.absNode.isSome = true) :
    (scrapeFields { pg with metaDesc := d2 } url n).abstract =
      (scrapeFields pg url n).abstract ∧
    ∀ t, pg.absNode = some t → clean_text t = [] →
      (scrapeFields pg url n).abstract = [] := by
  obtain ⟨t0, hab⟩ : ∃ t0, pg.absNode = some t0 := by
    cases hx : pg.absNode with
    | none => rw [hx] at h; simp at h
    | some t0 => exact ⟨t0, rfl⟩
  constructor
  · show abstractOf { pg with metaDesc := d2 } = abstractOf pg
    unfold abstractOf
    simp only [hab]
  · intro t htt hct
    show abstractOf pg = []
    unfold abstractOf
    simp only [htt]
    by_cases ht0 : t = []
    · simp [normalize_abstract, ht0]
    · rw [normalize_abstract_eq ht0, hct]
      decide

/-- Witness for claim C10: a whitespace-only abstract element hides the
description meta tag and gives an empty abstract. -/
theorem claim_C10_witness :
    (scrapeFields
      { dcTitle := none, docTitle := none, pubNum := none,
        absNode := some "   ".data, metaDesc := some "desc".data,
        claimNodes := [], altNodes := [] } [] 0).abstract = [] :=
  (claim_C10
    { dcTitle := none, docTitle := none, pubNum := none,
      absNode := some "   ".data, metaDesc := some "desc".data,
      claimNodes := [], altNodes := [] } [] 0 none (by decide)).2
    "   ".data rfl (by decide)

/-- Claim C8: a transport failure or a non-success status makes the
fetch raise; the error propagates through the extractor and the main
block, no record is produced and no output pair (filename, record) is
computed.  The HTTP layer itself is external and modelled from the
spec. -/
theorem claim_C8 (o : FetchOutcome) (url : List Char)
    (h : fetchFailed o = true) :
    scrape_google_patents o url = Except.error ScrapeError.fetchError ∧
    mainRun o url = Except.error ScrapeError.fetchError := by
  have hf : fetchPage o = Except.error ScrapeError.fetchError := by
    cases o with
    | transportError => rfl
    | response s pg n =>
      simp only [fetchFailed] at h
      have hss : statusSuccess s = false := by
        cases hb : statusSuccess s with
        | false => rfl
        | true => rw [hb] at h; simp at h
      show (if statusSuccess s = true then Except.ok (pg, n)
          else Except.error ScrapeError.fetchError) =
        Except.error ScrapeError.fetchError
      rw [hss]
      simp
  have h1 : scrape_google_patents o url =
      Except.error ScrapeError.fetchError := by
    unfold scrape_google_patents
    rw [hf]
    rfl
  refine ⟨h1, ?_⟩
  unfold mainRun
  rw [h1]
  rfl

/-- Witness for claim C8 at a concrete failing fetch. -/
theorem claim_C8_witness :
    scrape_google_patents FetchOutcome.transportError [] =
        Except.error ScrapeError.fetchError ∧
      mainRun FetchOutcome.transportError [] =
        Except.error ScrapeError.fetchError :=
  claim_C8 FetchOutcome.transportError [] rfl

theorem specSan_cons_ok {c : Char} {r : List Char}
    (hc : allowedChar c = true) : specSan (c :: r) = c :: specSan r := by
  simp [specSan, hc]

theorem specSan_bad_nil {c : Char} (hc : allowedChar c = false) :
    specSan [c] = ['_'] := by
  simp [specSan, hc]

theorem specSan_bad_ok {c d : Char} {r : List Char}
    (hc : allowedChar c = false) (hd : allowedChar d = true) :
    specSan (c :: d :: r) = '_' :: specSan (d :: r) := by
  simp [specSan, hc, hd]

theorem specSan_bad_bad {c d : Char} {r : List Char}
    (hc : allowedChar c = false) (hd : allowedChar d = false) :
    specSan (c :: d :: r) = specSan (d :: r) := by
  simp [specSan, hc, hd]

theorem specSan_bad {c : Char} (hc : allowedChar c = false) :
    ∀ l, specSan (c :: l) =
      '_' :: specSan (l.dropWhile (fun d => !allowedChar d)) := by
  intro l
  induction l generalizing c with
  | nil => rw [specSan_bad_nil hc]; rfl
  | cons d r ih =>
    cases hd : allowedChar d with
    | true =>
      rw [specSan_bad_ok hc hd,
        List.dropWhile_cons_of_neg (by simp [hd])]
    | false =>
      rw [specSan_bad_bad hc hd,
        List.dropWhile_cons_of_pos (by simp [hd]), ih hd]

theorem sanitize_spec (l : List Char) :
    sanitizeAux false l = specSan l ∧
    sanitizeAux true l =
      specSan (l.dropWhile (fun d => !allowedChar d)) := by
  induction l with
  | nil => exact ⟨rfl, rfl⟩
  | cons c r ih =>
    cases hc : allowedChar c with
    | true =>
      constructor
      · show (if allowedChar c = true then c :: sanitizeAux false r
            else '_' :: sanitizeAux true r) = specSan (c :: r)
        rw [if_pos hc, specSan_cons_ok hc, ih.1]
      · rw [List.dropWhile_cons_of_neg (by simp [hc])]
        show (if allowedChar c = true then c :: sanitizeAux false r
            else sanitizeAux true r) = specSan (c :: r)
        rw [if_pos hc, specSan_cons_ok hc, ih.1]
    | false =>
      constructor
      · show (if allowedChar c = true then c :: sanitizeAux false r
            else '_' :: sanitizeAux true r) = specSan (c :: r)
        rw [if_neg (by simp [hc]), specSan_bad hc r, ih.2]
      · rw [List.dropWhile_cons_of_pos (by simp [hc])]
        show (if allowedChar c = true then c :: sanitizeAux false r
            else sanitizeAux true r) =
          specSan (r.dropWhile (fun d => !allowedChar d))
        rw [if_neg (by simp [hc]), ih.2]

/-- Claim C9 (as stated, refuted): the sanitizer does not replace each
disallowed character by its own underscore — a run of two disallowed
characters yields a single underscore, not two. -/
theorem claim_C9_cex :
    slugOf "a..b".data ≠
      "a..b".data.map (fun c => if allowedChar c then c else '_') := by
  decide

/-- Claim C9 (amended): the output filename slug is obtained from the
publication number (or the fallback name "patent" when it is empty) by
replacing each maximal run of characters outside letters, digits,
underscore and hyphen with a single underscore. -/
theorem claim_C9 (pub : List Char) :
    slugOf pub = specSan (if pub = [] then "patent".data else pub) :=
  (sanitize_spec (if pub = [] then "patent".data else pub)).1



